import Mathlib

/-!
Shallow embedding of the INTERN full-text search daemon (src/main.rs) and
verification of the frozen claims about its specification.

The embedding models the pure data transformations of the program: the text
pipeline (punctuation tokenization, NFD/accent handling, stemming), the SQLite
store as an in-memory record of the three tables, the indexer, and the query
engine (posting retrieval, collation, proximity scoring, ranking, and the date
query).  Stateful Rust code becomes explicit state passing over a `Store`
value; fallible code (UTF-8 decoding of the request buffer) returns
`Option`/`Except`.  Rust `HashMap`s are modelled as insertion-ordered
association lists; where a HashMap's iteration order is observable in a
result (the key enumerations of the scoring pass), the std HashMap leaves
that order unspecified, so theorems about it either evaluate at inputs where
the order is irrelevant or take the enumeration as an explicit parameter
(`sortSearchResultsWithOrder`).  `u32`/`u64` values are modelled as `Nat`
(none of the verified code paths overflow 32/64 bits); `f32` scores are
modelled as `ℚ` (the score arithmetic here is exact in both).
-/

namespace Intern

/-! ### Association lists (model of Rust HashMap) -/

def assocLookup [DecidableEq κ] (m : List (κ × β)) (k : κ) : Option β :=
  match m with
  | [] => none
  | (k2, v) :: rest => if k2 = k then some v else assocLookup rest k

def assocInsert [DecidableEq κ] (m : List (κ × β)) (k : κ) (v : β) : List (κ × β) :=
  match m with
  | [] => [(k, v)]
  | (k2, v2) :: rest => if k2 = k then (k, v) :: rest else (k2, v2) :: assocInsert rest k v

def assocContains [DecidableEq κ] (m : List (κ × β)) (k : κ) : Bool :=
  (assocLookup m k).isSome

/-! ### Text pipeline (main.rs lines 68-69, 429-431, 446, 546-551)

The punctuation regex is `[\x00-\x26\x28-\x2F\x3A-\x40\x5B-\x60\x7B-\x7F]+`;
`punc.replace_all(text, " ")` followed by `split_whitespace()` is equivalent to
splitting the text into maximal runs of characters that are neither in the
punctuation class nor Unicode whitespace (every punctuation character is
replaced by a space, and `split_whitespace` splits on Unicode whitespace). -/

def isPunc (c : Char) : Bool :=
  (c.toNat ≤ 0x26) || (0x28 ≤ c.toNat && c.toNat ≤ 0x2F) ||
  (0x3A ≤ c.toNat && c.toNat ≤ 0x40) || (0x5B ≤ c.toNat && c.toNat ≤ 0x60) ||
  (0x7B ≤ c.toNat && c.toNat ≤ 0x7F)

/-- Unicode `White_Space` code points, as used by Rust `split_whitespace` and
`str::trim`. -/
def isUniWs (c : Char) : Bool :=
  let n := c.toNat
  (0x09 ≤ n && n ≤ 0x0D) || n == 0x20 || n == 0x85 || n == 0xA0 || n == 0x1680 ||
  (0x2000 ≤ n && n ≤ 0x200A) || n == 0x2028 || n == 0x2029 || n == 0x202F ||
  n == 0x205F || n == 0x3000

def isSplitChar (c : Char) : Bool := isPunc c || isUniWs c

def splitTokensAux : List Char → List Char → List String
  | [], acc => if acc.isEmpty then [] else [String.mk acc.reverse]
  | c :: cs, acc =>
    if isSplitChar c then
      if acc.isEmpty then splitTokensAux cs []
      else String.mk acc.reverse :: splitTokensAux cs []
    else splitTokensAux cs (c :: acc)

/-- Model of `punc.replace_all(&text, " ")` followed by `split_whitespace()`. -/
def tokenize (s : String) : List String := splitTokensAux s.data []

/-- Model of the subsequent `.filter(|w| !punc.is_match(w))` applied to the
token stream (main.rs lines 446, 457, 1020).  After the replacement pass no
token can still contain a punctuation character, so this filter keeps every
token; it is retained for faithfulness to the source. -/
def tokenizeFiltered (s : String) : List String :=
  (tokenize s).filter (fun t => !(t.data.any isPunc))

/-- Modelled from the spec: "Decompose to Unicode NFD" (the source delegates to
the external unicode_normalization crate, whose code is not part of this
repository).  The model covers the code points exercised in this development:
ASCII characters are NFD-invariant, and the precomposed Latin letters below
decompose into their base letter followed by a combining mark. -/
def nfdChar (c : Char) : List Char :=
  if c = 'é' then ['e', Char.ofNat 0x301]
  else if c = 'É' then ['E', Char.ofNat 0x301]
  else if c = 'à' then ['a', Char.ofNat 0x300]
  else if c = 'ç' then ['c', Char.ofNat 0x327]
  else [c]

def nfdStr (s : List Char) : List Char := (s.map nfdChar).flatten

/-- Model of `acc.replace_all(&nfd, "")` where `acc` is the regex built from
the pattern `\x{0300}-\x{035f}` (main.rs line 69).  The pattern has no
character-class brackets, so it matches only the literal three-character
sequence U+0300, '-', U+035F; `replace_all` deletes its non-overlapping
occurrences, scanning left to right. -/
def stripAccentPattern : List Char → List Char
  | a :: b :: c :: rest =>
    if a = Char.ofNat 0x300 ∧ b = '-' ∧ c = Char.ofNat 0x35F then
      stripAccentPattern rest
    else a :: stripAccentPattern (b :: c :: rest)
  | l => l

def toLowerChars (l : List Char) : List Char := l.map Char.toLower

def trimChars (l : List Char) : List Char :=
  ((l.dropWhile isUniWs).reverse.dropWhile isUniWs).reverse

/-- Model of `stem_word` (main.rs lines 547-551).  The Porter2/English stemmer
is the external rust_stemmers crate; it is abstracted as the parameter `st`,
applied exactly where the source applies `stem.stem(..)`. -/
def stem_word (st : String → String) (word : String) : String :=
  let nfd := nfdStr word.data
  let no_accents := toLowerChars (stripAccentPattern nfd)
  String.mk (trimChars (st (String.mk no_accents)).data)

/-! ### Data model (main.rs lines 31-65, 475-509) -/

structure MonitoredFile where
  id : Nat
  modified : Nat
  path : String
  deriving DecidableEq, Repr

structure WordStem where
  id : Nat
  stem : String
  deriving DecidableEq, Repr

/-- A row of `file_reverse_index`.  The `id` column is autoincrement and never
written or read by the program, so it is omitted from the model. -/
structure IndexTuple where
  file : Nat
  stem : Nat
  offset : Nat
  word : String
  deriving DecidableEq, Repr

structure SearchResult where
  path : String
  word : String
  stem : Nat
  offset : Nat
  deriving DecidableEq, Repr

/-- The three tables owned by the store, together with the autoincrement
counters for the two tables whose ids the program reads back. -/
structure Store where
  files : List MonitoredFile
  stems : List WordStem
  postings : List IndexTuple
  nextFileId : Nat
  nextStemId : Nat
  deriving DecidableEq, Repr

/-! ### Store operations (main.rs lines 553-693) -/

/-- Model of `select_file` (lines 554-569): the prepared query returns every
row with the given path and the caller takes `.last()`. -/
def selectFile (store : Store) (path : String) : Option MonitoredFile :=
  (store.files.filter (fun f => f.path = path)).getLast?

/-- Model of `select_all_stems` (lines 572-591): each row is inserted into a
map keyed by the stem text, a later duplicate stem overwriting an earlier
one. -/
def selectAllStems (store : Store) : List (String × Nat) :=
  store.stems.foldl (fun acc ws => assocInsert acc ws.stem ws.id) []

/-- Model of `insert_file` (lines 594-610): the INSERT appends a row with the
next autoincrement id, and the following `select_file` returns that row (the
last row with the given path). -/
def insertFile (store : Store) (path : String) (modified : Nat) :
    Store × MonitoredFile :=
  let row : MonitoredFile := ⟨store.nextFileId, modified, path⟩
  ({ store with files := store.files ++ [row], nextFileId := store.nextFileId + 1 },
   row)

/-- Model of `insert_bulk_stems` (lines 613-625): a no-op returning the
reloaded stem map when the list is empty; otherwise one INSERT appending a row
per list element, in order, then a reload. -/
def insertBulkStems (store : Store) (stems : List String) :
    Store × List (String × Nat) :=
  if stems.isEmpty then (store, selectAllStems store)
  else
    let rows := stems.enum.map (fun p => WordStem.mk (store.nextStemId + p.1) p.2)
    let store2 := { store with
      stems := store.stems ++ rows,
      nextStemId := store.nextStemId + stems.length }
    (store2, selectAllStems store2)

/-- Model of `insert_bulk_word_tuples` (lines 628-670): the tuples are inserted
in order; the chunking into statements of at most 8192 parameter groups does
not change the resulting table contents. -/
def insertBulkWordTuples (store : Store) (words : List IndexTuple) : Store :=
  { store with postings := store.postings ++ words }

/-- Model of `update_file_mod_time` (lines 673-683): every row with the given
path gets the new modified time. -/
def updateFileModTime (store : Store) (lastModified : Nat) (path : String) :
    Store :=
  { store with files := store.files.map (fun f =>
      if f.path = path then { f with modified := lastModified } else f) }

/-- Model of `clear_index_for` (lines 686-693). -/
def clearIndexFor (store : Store) (fileId : Nat) : Store :=
  { store with postings := store.postings.filter (fun t => !(t.file == fileId)) }

/-! ### Indexer (main.rs lines 371-472) -/

/-- Model of `index_file` (lines 419-472).  `content` is the result of
`fs::read_to_string(path)`: `none` models a read failure, which the source
absorbs with `.unwrap_or("".to_string())`.  In the second pass the source
indexes `all_stems[&stem]`, which would panic were the stem absent; after the
bulk insert every stem of the token stream is present, so the model's
`.getD 0` default is never taken on those inputs. -/
def indexFile (st : String → String) (store : Store) (path : String)
    (fileId : Nat) (lastModified : Nat) (content : Option String) : Store :=
  let text := content.getD ""
  let tokens := tokenizeFiltered text
  let allStems := selectAllStems store
  let cleared :=
    if 0 < fileId then (clearIndexFor store fileId, fileId)
    else
      let inserted := insertFile store path lastModified
      (inserted.1, inserted.2.id)
  let newStems := tokens.foldl (fun acc w =>
      let s := stem_word st w
      if assocContains allStems s then acc else acc ++ [s]) []
  let bulk := insertBulkStems cleared.1 newStems
  let tuples := tokens.enum.map (fun p =>
      IndexTuple.mk cleared.2 ((assocLookup bulk.2 (stem_word st p.2)).getD 0) p.1 p.2)
  insertBulkWordTuples bulk.1 tuples

/-- Model of `process_file` (lines 371-416): look the path up; re-index only
when the stored mtime is stale, updating it first; insert a fresh row for an
unknown path. -/
def processFile (st : String → String) (store : Store) (path : String)
    (lastModified : Nat) (content : Option String) : Store :=
  match selectFile store path with
  | some row =>
    if row.modified < lastModified then
      let store1 := updateFileModTime store lastModified path
      indexFile st store1 path row.id lastModified content
    else store
  | none =>
    let inserted := insertFile store path lastModified
    indexFile st inserted.1 path inserted.2.id lastModified content

/-! ### Query engine (main.rs lines 696-872, 1006-1043) -/

/-- Lexicographic comparison of character lists by code point.  For valid
UTF-8, comparing strings by code point coincides with comparing their UTF-8
encodings byte by byte, so this models both the SQLite BINARY collation used
by ORDER BY on the TEXT column `path` and Rust's `str` ordering. -/
def charListLt : List Char → List Char → Bool
  | [], [] => false
  | [], _ :: _ => true
  | _ :: _, [] => false
  | a :: as, b :: bs =>
    if a.toNat < b.toNat then true
    else if b.toNat < a.toNat then false
    else charListLt as bs

def strLt (a b : String) : Bool := charListLt a.data b.data

/-- The ORDER BY (path, stem, offset) relation of the `search_index` query. -/
def searchLe (x y : SearchResult) : Bool :=
  strLt x.path y.path ||
    (x.path == y.path &&
      (x.stem < y.stem || (x.stem == y.stem && x.offset ≤ y.offset)))

/-- Model of `search_index` (lines 696-718): join postings with their file
rows, restricted to the given stem ids, ordered by (path, stem, offset).
`monitored_file.id` is the primary key, so the join resolves each posting's
file row with `find?`. -/
def search_index (store : Store) (stems : List WordStem) : List SearchResult :=
  let ids := stems.map (fun s => s.id)
  let rows := store.postings.filterMap (fun t =>
      if t.stem ∈ ids then
        (store.files.find? (fun f => f.id == t.file)).map
          (fun f => SearchResult.mk f.path t.word t.stem t.offset)
      else none)
  rows.insertionSort (fun x y => searchLe x y = true)

/-- The mutable locals of the `collate_search` loop (lines 729-733). -/
structure CollateState where
  result : List (String × List (Nat × List SearchResult))
  byStem : List SearchResult
  byFile : List (Nat × List SearchResult)
  lastStem : Nat
  lastFile : String
  deriving DecidableEq, Repr

/-- One iteration of the `collate_search` loop body (lines 735-798), in source
order: fake a previous run on the first iteration, flush the stem group when
the stem or file changes, flush (and AND-check) the file group when the file
changes, then push the current row. -/
def collateStep (stemIds : List Nat) (s : CollateState) (sr : SearchResult) :
    CollateState :=
  let lastFile := if s.lastFile = "" then sr.path else s.lastFile
  let lastStem := if s.lastStem = 0 then sr.stem else s.lastStem
  let flushed :=
    if sr.stem ≠ lastStem ∨ sr.path ≠ lastFile then
      (assocInsert s.byFile lastStem s.byStem, ([] : List SearchResult), sr.stem)
    else (s.byFile, s.byStem, lastStem)
  let filed :=
    if sr.path ≠ lastFile then
      let allFound := stemIds.all (fun sid => assocContains flushed.1 sid)
      ((if allFound then assocInsert s.result lastFile flushed.1 else s.result),
       ([] : List (Nat × List SearchResult)), sr.path)
    else (s.result, flushed.1, lastFile)
  ⟨filed.1, flushed.2.1 ++ [sr], filed.2.1, flushed.2.2, filed.2.2⟩

/-- Model of `collate_search` (lines 725-801): fold the loop body over the
sorted posting stream and return the accumulated result map.  Note that the
groups still pending in `by_stem`/`by_file` when the stream ends are dropped
with the loop's locals, exactly as in the source. -/
def collate_search (search : List SearchResult) (stemIds : List Nat) :
    List (String × List (Nat × List SearchResult)) :=
  (search.foldl (collateStep stemIds) ⟨[], [], [], 0, ""⟩).result

/-- The score increment for one successful offset comparison
(lines 835-841). -/
def bonus (diff : Nat) : ℚ :=
  if diff < 2 then 3 else if diff < 7 then 2 else if diff ≤ 20 then 1 else 0

/-- The body of the two-pointer offset merge (lines 825-844), written with a
fuel argument so that it is structurally recursive and evaluates by kernel
reduction.  Every iteration of the while loop strictly decreases
`(offsets.len() - oi) + (compare.len() - ci)`, so running the body with that
measure as fuel computes the loop exactly (`mergeScore_eq` below proves the
loop's recurrence). -/
def mergeScoreAux (offsets compare : List SearchResult) :
    Nat → Nat → Nat → ℚ → ℚ
  | 0, _, _, score => score
  | fuel + 1, oi, ci, score =>
    if h : oi < offsets.length ∧ ci < compare.length then
      let offset := (offsets.get ⟨oi, h.1⟩).offset
      let comp := (compare.get ⟨ci, h.2⟩).offset
      if comp < offset then mergeScoreAux offsets compare fuel oi (ci + 1) score
      else mergeScoreAux offsets compare fuel (oi + 1) ci (score + bonus (comp - offset))
    else score

/-- Model of the two-pointer offset merge (lines 825-844): advance the later
pointer while its offset is smaller, otherwise score the unsigned difference
`comp - offset` and advance the earlier pointer. -/
def mergeScore (offsets compare : List SearchResult) (oi ci : Nat) (score : ℚ) :
    ℚ :=
  mergeScoreAux offsets compare ((offsets.length - oi) + (compare.length - ci))
    oi ci score

/-- The merge body with the subtraction guarded: it returns `none` if
`comp - offset` is ever evaluated with `comp < offset` (the u32 underflow of
claim C10). -/
def mergeScoreCheckedAux (offsets compare : List SearchResult) :
    Nat → Nat → Nat → ℚ → Option ℚ
  | 0, _, _, score => some score
  | fuel + 1, oi, ci, score =>
    if h : oi < offsets.length ∧ ci < compare.length then
      let offset := (offsets.get ⟨oi, h.1⟩).offset
      let comp := (compare.get ⟨ci, h.2⟩).offset
      if comp < offset then mergeScoreCheckedAux offsets compare fuel oi (ci + 1) score
      else
        if offset ≤ comp then
          mergeScoreCheckedAux offsets compare fuel (oi + 1) ci
            (score + bonus (comp - offset))
        else none
    else some score

/-- The merge of `mergeScore` with every subtraction guarded against
underflow. -/
def mergeScoreChecked (offsets compare : List SearchResult) (oi ci : Nat)
    (score : ℚ) : Option ℚ :=
  mergeScoreCheckedAux offsets compare
    ((offsets.length - oi) + (compare.length - ci)) oi ci score

theorem mergeScoreAux_fuel (offsets compare : List SearchResult) :
    ∀ (f1 f2 oi ci : Nat) (score : ℚ),
      (offsets.length - oi) + (compare.length - ci) ≤ f1 →
      (offsets.length - oi) + (compare.length - ci) ≤ f2 →
      mergeScoreAux offsets compare f1 oi ci score =
        mergeScoreAux offsets compare f2 oi ci score := by
  intro f1
  induction f1 with
  | zero =>
    intro f2 oi ci score h1 h2
    have hb : ¬(oi < offsets.length ∧ ci < compare.length) := by omega
    cases f2 with
    | zero => rfl
    | succ f2 => simp only [mergeScoreAux, hb, dite_false, dif_neg hb]
  | succ f1 ih =>
    intro f2 oi ci score h1 h2
    by_cases hb : oi < offsets.length ∧ ci < compare.length
    · have hm : 1 ≤ (offsets.length - oi) + (compare.length - ci) := by omega
      cases f2 with
      | zero => omega
      | succ f2 =>
        simp only [mergeScoreAux, dif_pos hb]
        by_cases hc :
            (compare.get ⟨ci, hb.2⟩).offset < (offsets.get ⟨oi, hb.1⟩).offset
        · rw [if_pos hc, if_pos hc]
          exact ih f2 oi (ci + 1) score (by omega) (by omega)
        · rw [if_neg hc, if_neg hc]
          exact ih f2 (oi + 1) ci _ (by omega) (by omega)
    · cases f2 with
      | zero => simp only [mergeScoreAux, dif_neg hb]
      | succ f2 => simp only [mergeScoreAux, dif_neg hb]

/-- The fueled definition satisfies the recurrence of the source's while loop
(lines 825-844) exactly. -/
theorem mergeScore_eq (offsets compare : List SearchResult) (oi ci : Nat)
    (score : ℚ) :
    mergeScore offsets compare oi ci score =
      if h : oi < offsets.length ∧ ci < compare.length then
        if (compare.get ⟨ci, h.2⟩).offset < (offsets.get ⟨oi, h.1⟩).offset then
          mergeScore offsets compare oi (ci + 1) score
        else
          mergeScore offsets compare (oi + 1) ci
            (score + bonus ((compare.get ⟨ci, h.2⟩).offset -
              (offsets.get ⟨oi, h.1⟩).offset))
      else score := by
  unfold mergeScore
  by_cases hb : oi < offsets.length ∧ ci < compare.length
  · rw [dif_pos hb]
    have hm : 1 ≤ (offsets.length - oi) + (compare.length - ci) := by omega
    obtain ⟨f, hf⟩ : ∃ f, (offsets.length - oi) + (compare.length - ci) = f + 1 :=
      ⟨(offsets.length - oi) + (compare.length - ci) - 1, by omega⟩
    rw [hf]
    simp only [mergeScoreAux, dif_pos hb]
    by_cases hc : (compare.get ⟨ci, hb.2⟩).offset < (offsets.get ⟨oi, hb.1⟩).offset
    · rw [if_pos hc, if_pos hc]
      exact mergeScoreAux_fuel offsets compare f _ oi (ci + 1) score
        (by omega) (by omega)
    · rw [if_neg hc, if_neg hc]
      exact mergeScoreAux_fuel offsets compare f _ (oi + 1) ci _
        (by omega) (by omega)
  · rw [dif_neg hb]
    cases hz : (offsets.length - oi) + (compare.length - ci) with
    | zero => rfl
    | succ f => simp only [mergeScoreAux, dif_neg hb]

/-- The per-file score of `sort_search_results` (lines 814-856): start at 1.0;
for `s in 1..stem_keys.len()-1` run the offset merge of the stem groups at
indices `s` and `s+1` (note the range starts at 1, not 0); then multiply by
1.1 for every posting whose surface word occurs literally in the query. -/
def fileScore (stems : List (Nat × List SearchResult)) (query : List String) :
    ℚ :=
  let stemKeys := stems.map (fun p => p.1)
  let proximity := (List.range' 1 (stemKeys.length - 1 - 1)).foldl (fun sc s =>
      let offsets := (assocLookup stems (stemKeys.getD s 0)).getD []
      let compare := (assocLookup stems (stemKeys.getD (s + 1) 0)).getD []
      mergeScore offsets compare 0 0 sc) 1
  stemKeys.foldl (fun sc k =>
      ((assocLookup stems k).getD []).foldl
        (fun sc2 w => if w.word ∈ query then sc2 * (11 / 10) else sc2) sc)
    proximity

/-- The `ranking` map of `sort_search_results` (lines 809-857): one score per
key of the collated search map.  The source builds `ranking` by iterating
`search.keys()` (line 813), a std HashMap iteration whose order is
unspecified; this definition fixes one representative enumeration (insertion
order).  The choice is immaterial for the map's *content*: with distinct keys
every enumeration assigns each key the same score, proved as `rankOf_eq`
below, and no theorem in this file relies on the position of the entries in
this list. -/
def searchRanking (search : List (String × List (Nat × List SearchResult)))
    (query : List String) : List (String × ℚ) :=
  (search.map (fun p => p.1)).foldl (fun acc k =>
      assocInsert acc k (fileScore ((assocLookup search k).getD []) query)) []

/-- The score a path receives in the `ranking` map (the `ranking[a]` lookups
of the comparator at lines 860-866). -/
def rankOf (search : List (String × List (Nat × List SearchResult)))
    (query : List String) (a : String) : ℚ :=
  (assocLookup (searchRanking search query) a).getD 0

/-- Model of `sort_search_results` (lines 804-872) with one fixed key
enumeration: score every surviving file, sort the paths ascending by score
with a stable sort (Rust `sort_by` is stable, and the comparator orders by
score alone), and append one empty string.  The list being sorted comes from
`ranking.keys()` (line 859), another unspecified-order HashMap iteration;
this definition again fixes the insertion order.  It is used only where that
order is irrelevant (the claims that evaluate it do so on an empty collation);
`sortSearchResultsWithOrder` below leaves the enumeration abstract and is the
faithful model for order-sensitive properties (claim C7). -/
def sort_search_results (search : List (String × List (Nat × List SearchResult)))
    (query : List String) : List String :=
  let result := (searchRanking search query).map (fun p => p.1)
  (result.insertionSort
    (fun a b => rankOf search query a ≤ rankOf search query b)) ++ [""]

/-- Model of `sort_search_results` (lines 804-872) with the HashMap key
iterations left abstract: `keys` is the enumeration produced by
`ranking.keys()` (line 859) — some permutation of the surviving file paths, in
an order the std HashMap leaves unspecified.  The ranking map's content does
not depend on the order `search.keys()` (line 813) was iterated in (with
distinct keys every enumeration builds the same key-to-score mapping,
`rankOf_eq`), so the enumeration `keys` is the only order that reaches the
output: the comparator orders by score alone and `sort_by` is stable, hence
the output is `keys` stably sorted ascending by score, plus the appended
empty string. -/
def sortSearchResultsWithOrder
    (search : List (String × List (Nat × List SearchResult)))
    (query : List String) (keys : List String) : List String :=
  (keys.insertionSort
    (fun a b => rankOf search query a ≤ rankOf search query b)) ++ [""]

/-- The stem list and deduplicated id list built from the query tokens
(lines 1020-1032). -/
def queryStemsAux (st : String → String) (allStems : List (String × Nat)) :
    List String → List WordStem × List Nat → List WordStem × List Nat
  | [], acc => acc
  | w :: ws, acc =>
    let s := stem_word st w
    let id := (assocLookup allStems s).getD 0
    queryStemsAux st allStems ws
      (acc.1 ++ [⟨id, s⟩], if id ∉ acc.2 ∧ 0 < id then acc.2 ++ [id] else acc.2)

def queryStems (st : String → String) (store : Store) (query : String) :
    List WordStem × List Nat :=
  queryStemsAux st (selectAllStems store) (tokenizeFiltered query) ([], [])

/-- Model of `respond_to_search` (lines 1006-1043), up to the final
`join("\n")` and socket write: the list of lines sent to the client. -/
def respondToSearch (st : String → String) (store : Store) (query : String) :
    List String :=
  let qs := queryStems st store query
  let results := search_index store qs.1
  let serps := collate_search results qs.2
  sort_search_results serps (tokenize query)

/-! ### Date query (main.rs lines 926-963) -/

/-- Model of the SELECT in `respond_to_today` (lines 943-948): rows with
`modified >= day_start AND modified <= day_start + 86400`, ordered by
`modified` ascending. -/
def onWindowFiles (store : Store) (dayStart : Int) : List MonitoredFile :=
  (store.files.filter (fun f =>
      decide (dayStart ≤ (f.modified : Int) ∧ (f.modified : Int) ≤ dayStart + 86400))).insertionSort
    (fun f g => f.modified ≤ g.modified)

/-- The lines sent to the client for an `@on` query whose date parsed to the
epoch second `dayStart` (lines 949-959): the paths in window order plus the
trailing empty line. -/
def respondToToday (store : Store) (dayStart : Int) : List String :=
  ((onWindowFiles store dayStart).map (fun f => f.path)) ++ [""]

/-! ### Request handling (main.rs lines 875-923) -/

def utf8Cont (b : Nat) : Bool := 0x80 ≤ b && b ≤ 0xBF

/-- The UTF-8 validation loop, written with a fuel argument so that it is
structurally recursive and evaluates by kernel reduction.  Every step consumes
at least one byte and one unit of fuel, so running it with the buffer length
as fuel never exhausts the fuel (the `0, _ :: _` branch is unreachable from
`utf8Decode?`). -/
def utf8DecodeAux : Nat → List Nat → Option (List Char)
  | _, [] => some []
  | 0, _ :: _ => none
  | fuel + 1, b :: rest =>
    if b < 0x80 then
      (utf8DecodeAux fuel rest).map (fun cs => Char.ofNat b :: cs)
    else if b < 0xC2 then none
    else if b < 0xE0 then
      match rest with
      | b1 :: rest1 =>
        if utf8Cont b1 then
          (utf8DecodeAux fuel rest1).map (fun cs =>
            Char.ofNat ((b - 0xC0) * 0x40 + (b1 - 0x80)) :: cs)
        else none
      | [] => none
    else if b < 0xF0 then
      match rest with
      | b1 :: b2 :: rest2 =>
        if (if b = 0xE0 then 0xA0 ≤ b1 && b1 ≤ 0xBF
            else if b = 0xED then 0x80 ≤ b1 && b1 ≤ 0x9F
            else utf8Cont b1) && utf8Cont b2 then
          (utf8DecodeAux fuel rest2).map (fun cs =>
            Char.ofNat (((b - 0xE0) * 0x40 + (b1 - 0x80)) * 0x40 + (b2 - 0x80)) :: cs)
        else none
      | _ => none
    else if b < 0xF5 then
      match rest with
      | b1 :: b2 :: b3 :: rest3 =>
        if (if b = 0xF0 then 0x90 ≤ b1 && b1 ≤ 0xBF
            else if b = 0xF4 then 0x80 ≤ b1 && b1 ≤ 0x8F
            else utf8Cont b1) && utf8Cont b2 && utf8Cont b3 then
          (utf8DecodeAux fuel rest3).map (fun cs =>
            Char.ofNat ((((b - 0xF0) * 0x40 + (b1 - 0x80)) * 0x40 + (b2 - 0x80)) * 0x40
              + (b3 - 0x80)) :: cs)
        else none
      | _ => none
    else none

/-- UTF-8 validation and decoding of a byte buffer, with the semantics of Rust
`str::from_utf8`: `none` exactly when the buffer is not valid UTF-8 (invalid
leading byte, truncated or malformed multi-byte sequence, overlong encoding,
surrogate, or code point above U+10FFFF). -/
def utf8Decode? (l : List Nat) : Option (List Char) :=
  utf8DecodeAux l.length l

def natDigits? (s : String) : Option Nat :=
  if s.length > 0 && s.data.all (fun c => c.isDigit) then
    some (s.foldl (fun n c => n * 10 + (c.toNat - 48)) 0)
  else none

/-- Days between a Gregorian civil date and 1970-01-01 (the standard civil
calendar conversion). -/
def daysFromCivil (y m d : Int) : Int :=
  let y2 := if m ≤ 2 then y - 1 else y
  let era := (if 0 ≤ y2 then y2 else y2 - 399) / 400
  let yoe := y2 - era * 400
  let mp := (m + 9) % 12
  let doy := (153 * mp + 2) / 5 + d - 1
  let doe := yoe * 365 + yoe / 4 - yoe / 100 + doy
  era * 146097 + doe - 719468

/-- Modelled from the spec: the date handling of `@on`/`@ago` ("the remainder
is parsed as a calendar date in the form YYYY-MM-DD. Parse failure falls back
to the local-day start") — the source delegates the parsing to the external
chrono crate after stripping NUL padding, the prefix, and newlines.
`fallback` is today's local-day start. -/
def parseDayStart (s : String) (fallback : Int) : Int :=
  let cleaned := String.mk (s.data.filter (fun c =>
    !(c = Char.ofNat 0) && !(c = '\n') && !(c = ' ')))
  let body :=
    if cleaned.startsWith "@ago" then cleaned.drop 4
    else if cleaned.startsWith "@on" then cleaned.drop 3
    else cleaned
  match body.splitOn "-" with
  | [ys, ms, ds] =>
    match natDigits? ys, natDigits? ms, natDigits? ds with
    | some y, some m, some d =>
      if 1 ≤ m ∧ m ≤ 12 ∧ 1 ≤ d ∧ d ≤ 31 then daysFromCivil y m d * 86400
      else fallback
    | _, _, _ => fallback
  | _ => fallback

/-- Model of the per-connection handling inside `handle_queries`
(lines 896-921): the request is read into a zero-initialised 4096-byte buffer
(a single read of at most 4096 bytes), the whole buffer goes through
`str::from_utf8(&buffer).unwrap()` — the unwrap panics, modelled as
`Except.error`, when the buffer is not valid UTF-8 — and the decoded string is
dispatched on its prefix.  `respond_to_ago` is line-for-line identical to
`respond_to_today`, so both prefixes dispatch to the same model.
`todayStart` is the fallback local-day start used on date-parse failure. -/
def handleQuery (st : String → String) (store : Store) (todayStart : Int)
    (request : List Nat) : Except String (List String) :=
  let buffer := request.take 4096 ++ List.replicate (4096 - min request.length 4096) 0
  match utf8Decode? buffer with
  | none => Except.error "byte buffer is not valid UTF-8"
  | some cs =>
    let query := String.mk cs
    if query.startsWith "@on" then
      Except.ok (respondToToday store (parseDayStart query todayStart))
    else if query.startsWith "@ago" then
      Except.ok (respondToToday store (parseDayStart query todayStart))
    else
      Except.ok (respondToSearch st store query)

/-! ### Concrete inputs used by the claim theorems

The identity function stands in for the abstract stemmer parameter in the
concrete evaluations; each word used ("alpha", "beta", "hello", "zzz") is its
own Porter2 stem, so the instantiation agrees with the real stemmer on these
inputs. -/

/-- The store of scenario S4: `/a` contains only `alpha` (stem id 1), `/b`
contains `alpha beta` (stem ids 1 and 2), both files fully indexed. -/
def andStore : Store :=
  { files := [⟨1, 10, "/a"⟩, ⟨2, 10, "/b"⟩],
    stems := [⟨1, "alpha"⟩, ⟨2, "beta"⟩],
    postings := [⟨1, 1, 0, "alpha"⟩, ⟨2, 1, 0, "alpha"⟩, ⟨2, 2, 1, "beta"⟩],
    nextFileId := 3, nextStemId := 3 }

/-- Collated stem groups of `/a` = `alpha beta gamma delta` restricted to the
query stems: `alpha` at offset 0, `beta` at offset 1 (scenario S3). -/
def proxA : List (Nat × List SearchResult) :=
  [(1, [⟨"/a", "alpha", 1, 0⟩]), (2, [⟨"/a", "beta", 2, 1⟩])]

/-- Collated stem groups of `/b` = `alpha x x x x x x x beta`: `alpha` at
offset 0, `beta` at offset 8 (scenario S3). -/
def proxB : List (Nat × List SearchResult) :=
  [(1, [⟨"/b", "alpha", 1, 0⟩]), (2, [⟨"/b", "beta", 2, 8⟩])]

/-- The collated search map of scenario S3 as it reaches the scoring pass. -/
def proxMap : List (String × List (Nat × List SearchResult)) :=
  [("/a", proxA), ("/b", proxB)]

/-- Three files modified at 1700000000, 1700086399 and 1700086400 (scenario
S6). -/
def dateStore : Store :=
  { files := [⟨1, 1700000000, "/a"⟩, ⟨2, 1700086399, "/b"⟩, ⟨3, 1700086400, "/c"⟩],
    stems := [], postings := [], nextFileId := 4, nextStemId := 1 }

/-- A store with empty tables, as produced by `enforce_data_model` on a fresh
database. -/
def emptyStore : Store :=
  { files := [], stems := [], postings := [], nextFileId := 1, nextStemId := 1 }

/-- A store holding one already-indexed file `/f` (mtime 5, one posting), used
to exercise a stale re-index. -/
def staleStore : Store :=
  { files := [⟨1, 5, "/f"⟩], stems := [⟨1, "old"⟩], postings := [⟨1, 1, 0, "old"⟩],
    nextFileId := 2, nextStemId := 2 }

/-! ### Claim theorems -/

/-- C1: the claim states strict AND semantics — for `/a` containing only
`alpha` and `/b` containing `alpha beta`, the query `alpha beta` returns `/b`
and only `/b`, including when `/b` is the last file group of the posting
stream ordered by (path, stem_id, offset).  The code violates this: the
`collate_search` loop flushes a file group only when the path *changes*, so
the group still pending when the stream ends — here `/b`, the last file — is
dropped with the loop's locals, the collation result is empty, and the
response is only the trailing empty line instead of `/b`. -/
theorem c1_collate_drops_last_file_group :
    respondToSearch (fun s => s) andStore "alpha beta" = [""] ∧
    collate_search (search_index andStore [⟨1, "alpha"⟩, ⟨2, "beta"⟩]) [1, 2] = [] := by
  decide

/-- C2: the claim states that the scoring pass runs the two-pointer offset
merge for each adjacent pair of stems, including the first pair, so that in
scenario S3 `/a` (offsets one apart, +3.0) outscores `/b` (offsets eight
apart, +1.0).  The code violates this: the loop `for s in
1..stem_keys.len() - 1` starts at index 1 and therefore skips the pair
(0, 1); for a two-stem query it runs zero iterations, no proximity bonus is
ever added, and both files end with the identical score 1.0 · 1.1 · 1.1 =
121/100. -/
theorem c2_proximity_skips_first_pair :
    fileScore proxA ["alpha", "beta"] = fileScore proxB ["alpha", "beta"] ∧
    fileScore proxA ["alpha", "beta"] = 121 / 100 := by
  have ha : fileScore proxA ["alpha", "beta"] = 1 * (11 / 10) * (11 / 10) := by
    simp [fileScore, proxA, assocLookup, List.range']
  have hb : fileScore proxB ["alpha", "beta"] = 1 * (11 / 10) * (11 / 10) := by
    simp [fileScore, proxB, assocLookup, List.range']
  constructor
  · rw [ha, hb]
  · rw [ha]; norm_num

/-- C3 (counterexample): the claim states a half-open window — a file modified
exactly at `day_start + 86400` is not returned, and scenario S6 returns
exactly the first two paths.  The code's SQL uses `modified <= day_end`, a
closed interval: with day_start = 1700000000 the file `/c` modified at
1700086400 = day_start + 86400 is returned as well, so all three paths come
back. -/
theorem c3_closed_window_counterexample :
    respondToToday dateStore 1700000000 = ["/a", "/b", "/c", ""] := by decide

/-- C4: the claim states that stemming removes all combining-diacritic code
points U+0300–U+035F after NFD decomposition, so `stem("café") =
stem("cafe")`.  The code violates this: the accent regex is written
`\x{0300}-\x{035f}` without character-class brackets, so it matches only the
literal three-character sequence U+0300 '-' U+035F and removes no lone
combining mark.  After NFD, `café` still carries U+0301 into the stemmer
(shown here with the identity function in the stemmer's place), and the two
stems differ. -/
theorem c4_accent_fold_broken :
    Char.ofNat 0x301 ∈ stripAccentPattern (nfdStr "café".data) ∧
    stem_word (fun s => s) "café" ≠ stem_word (fun s => s) "cafe" := by decide

/-- C5: the claim states that the indexer pre-filters new stems so the bulk
stem insert receives no duplicates — a file containing the same
previously-unknown word twice creates exactly one `word_stem` row.  The code
violates this: the first pass checks each token's stem only against the stem
map loaded *before* the file, never against the `new_stems` list being built,
so `hello hello` on an empty store pushes `hello` twice and the bulk insert
creates two rows for the same stem. -/
theorem c5_duplicate_stem_rows :
    (processFile (fun s => s) emptyStore "/f" 10 (some "hello hello")).stems =
      [⟨1, "hello"⟩, ⟨2, "hello"⟩] := by decide

/-- C10: in the two-pointer proximity merge, the unsigned subtraction
`comp - offset` is evaluated only in the branch where `offset > comp` is
false, so it never underflows: the guarded variant of the merge, which fails
on any subtraction with `comp < offset`, succeeds on every input and computes
the same score. -/
theorem c10_merge_subtraction_never_underflows
    (offsets compare : List SearchResult) (oi ci : Nat) (score : ℚ) :
    mergeScoreChecked offsets compare oi ci score =
      some (mergeScore offsets compare oi ci score) := by
  unfold mergeScoreChecked mergeScore
  generalize (offsets.length - oi) + (compare.length - ci) = fuel
  induction fuel generalizing oi ci score with
  | zero => rfl
  | succ f ih =>
    by_cases hb : oi < offsets.length ∧ ci < compare.length
    · simp only [mergeScoreAux, mergeScoreCheckedAux, dif_pos hb]
      by_cases hc :
          (compare.get ⟨ci, hb.2⟩).offset < (offsets.get ⟨oi, hb.1⟩).offset
      · rw [if_pos hc, if_pos hc]
        exact ih oi (ci + 1) score
      · rw [if_neg hc, if_neg hc, if_pos (by omega)]
        exact ih (oi + 1) ci _
    · simp only [mergeScoreAux, mergeScoreCheckedAux, dif_neg hb]

/-- C3 (amended): the date-query window is the closed interval
[day_start, day_start + 86400] — a file modified exactly at
day_start + 86400 is also returned — and the paths are listed ordered by
`modified` ascending, followed by the trailing empty line.  (In the S6
scenario all three files are returned, see the counterexample.) -/
theorem c3_amended_closed_window (store : Store) (dayStart : Int) :
    (∀ p, p ∈ (onWindowFiles store dayStart).map (fun f => f.path) ↔
      ∃ f ∈ store.files, f.path = p ∧ dayStart ≤ (f.modified : Int) ∧
        (f.modified : Int) ≤ dayStart + 86400) ∧
    (onWindowFiles store dayStart).Pairwise (fun f g => f.modified ≤ g.modified) ∧
    respondToToday store dayStart =
      (onWindowFiles store dayStart).map (fun f => f.path) ++ [""] := by
  refine ⟨?_, ?_, rfl⟩
  · intro p
    unfold onWindowFiles
    rw [List.mem_map]
    constructor
    · rintro ⟨f, hf, rfl⟩
      have hf2 := (List.perm_insertionSort
        (fun f g : MonitoredFile => f.modified ≤ g.modified) _).mem_iff.mp hf
      rw [List.mem_filter] at hf2
      exact ⟨f, hf2.1, rfl, of_decide_eq_true hf2.2⟩
    · rintro ⟨f, hf, rfl, h1, h2⟩
      refine ⟨f, ?_, rfl⟩
      apply (List.perm_insertionSort
        (fun f g : MonitoredFile => f.modified ≤ g.modified) _).mem_iff.mpr
      rw [List.mem_filter]
      exact ⟨hf, decide_eq_true ⟨h1, h2⟩⟩
  · haveI : IsTotal MonitoredFile (fun f g => f.modified ≤ g.modified) :=
      ⟨fun a b => Nat.le_total _ _⟩
    haveI : IsTrans MonitoredFile (fun f g => f.modified ≤ g.modified) :=
      ⟨fun _ _ _ hab hbc => Nat.le_trans hab hbc⟩
    exact List.sorted_insertionSort _ _

theorem queryStemsAux_ids_extend (st : String → String)
    (allStems : List (String × Nat)) :
    ∀ (ws : List String) (ns : List WordStem) (ids : List Nat),
      ∃ ext, (queryStemsAux st allStems ws (ns, ids)).2 = ids ++ ext := by
  intro ws
  induction ws with
  | nil => intro ns ids; exact ⟨[], (List.append_nil ids).symm⟩
  | cons w ws ih =>
    intro ns ids
    simp only [queryStemsAux]
    split
    · obtain ⟨ext, hext⟩ := ih _ (ids ++ [(assocLookup allStems (stem_word st w)).getD 0])
      exact ⟨[(assocLookup allStems (stem_word st w)).getD 0] ++ ext,
        by rw [hext, List.append_assoc]⟩
    · exact ih _ ids

theorem queryStemsAux_ids_nil (st : String → String)
    (allStems : List (String × Nat)) :
    ∀ (ws : List String) (ns : List WordStem) (ids : List Nat),
      (queryStemsAux st allStems ws (ns, ids)).2 = [] →
      ids = [] ∧ ∀ w ∈ (queryStemsAux st allStems ws (ns, ids)).1,
        w ∈ ns ∨ w.id = 0 := by
  intro ws
  induction ws with
  | nil =>
    intro ns ids h
    exact ⟨h, fun w hw => Or.inl hw⟩
  | cons w ws ih =>
    intro ns ids h
    simp only [queryStemsAux] at h ⊢
    rcases hsplit : decide
        ((assocLookup allStems (stem_word st w)).getD 0 ∉ ids ∧
          0 < (assocLookup allStems (stem_word st w)).getD 0) with _ | _
    · have hcond : ¬((assocLookup allStems (stem_word st w)).getD 0 ∉ ids ∧
          0 < (assocLookup allStems (stem_word st w)).getD 0) :=
        of_decide_eq_false hsplit
      rw [if_neg hcond] at h ⊢
      obtain ⟨hidsnil, hall⟩ := ih _ ids h
      subst hidsnil
      have hid0 : (assocLookup allStems (stem_word st w)).getD 0 = 0 := by
        by_contra hne
        exact hcond ⟨List.not_mem_nil _, Nat.pos_of_ne_zero hne⟩
      refine ⟨rfl, fun v hv => ?_⟩
      rcases hall v hv with hmem | h0
      · rcases List.mem_append.mp hmem with hns | hnew
        · exact Or.inl hns
        · refine Or.inr ?_
          have : v = ⟨(assocLookup allStems (stem_word st w)).getD 0,
              stem_word st w⟩ := by simpa using hnew
          rw [this, hid0]
      · exact Or.inr h0
    · have hcond : ((assocLookup allStems (stem_word st w)).getD 0 ∉ ids ∧
          0 < (assocLookup allStems (stem_word st w)).getD 0) :=
        of_decide_eq_true hsplit
      rw [if_pos hcond] at h
      obtain ⟨ext, hext⟩ := queryStemsAux_ids_extend st allStems ws
        (ns ++ [⟨(assocLookup allStems (stem_word st w)).getD 0, stem_word st w⟩])
        (ids ++ [(assocLookup allStems (stem_word st w)).getD 0])
      rw [hext] at h
      simp at h

theorem search_index_all_zero (store : Store) (stems : List WordStem)
    (hpos : ∀ t ∈ store.postings, 0 < t.stem)
    (hz : ∀ w ∈ stems, w.id = 0) :
    search_index store stems = [] := by
  have hnil : store.postings.filterMap (fun t =>
      if t.stem ∈ stems.map (fun s => s.id) then
        (store.files.find? (fun f => f.id == t.file)).map
          (fun f => SearchResult.mk f.path t.word t.stem t.offset)
      else none) = [] := by
    rw [List.filterMap_eq_nil_iff]
    intro t ht
    have h1 : t.stem ∉ stems.map (fun s => s.id) := by
      intro hmem
      obtain ⟨w, hw, he⟩ := List.mem_map.mp hmem
      have h2 := hz w hw
      have h3 := hpos t ht
      omega
    rw [if_neg h1]
  show (store.postings.filterMap _).insertionSort _ = []
  rw [hnil]
  rfl

/-- C6: for every store whose postings reference only positive stem ids (all
autoincrement ids are positive) and every free-text request whose deduplicated
known-stem id list is empty — only punctuation, or every stem unknown — the
response is the single empty line `[""]` (joined: the empty response), and the
model computes it totally (no abort). -/
theorem c6_empty_stem_ids_empty_response (st : String → String) (store : Store)
    (query : String)
    (hpos : ∀ t ∈ store.postings, 0 < t.stem)
    (hids : (queryStems st store query).2 = []) :
    respondToSearch st store query = [""] := by
  have hz : ∀ w ∈ (queryStems st store query).1, w.id = 0 := by
    unfold queryStems at hids ⊢
    intro w hw
    rcases (queryStemsAux_ids_nil st (selectAllStems store)
      (tokenizeFiltered query) [] [] hids).2 w hw with hmem | h0
    · exact absurd hmem (List.not_mem_nil w)
    · exact h0
  have hsi : search_index store (queryStems st store query).1 = [] :=
    search_index_all_zero store _ hpos hz
  show sort_search_results
    (collate_search (search_index store (queryStems st store query).1)
      (queryStems st store query).2) (tokenize query) = [""]
  rw [hsi, hids]
  rfl

/-- Witness for C6: on the concrete store of S4 the query `zzz` knows no stem,
its id list is empty, and the response is the single empty line. -/
theorem c6_empty_stem_ids_empty_response_witness :
    (∀ t ∈ andStore.postings, 0 < t.stem) ∧
    (queryStems (fun s => s) andStore "zzz").2 = [] ∧
    respondToSearch (fun s => s) andStore "zzz" = [""] :=
  ⟨by decide, by decide,
    c6_empty_stem_ids_empty_response (fun s => s) andStore "zzz"
      (by decide) (by decide)⟩

theorem assocInsert_fresh [DecidableEq κ] :
    ∀ (m : List (κ × β)) (k : κ) (v : β), k ∉ m.map (fun p => p.1) →
      assocInsert m k v = m ++ [(k, v)] := by
  intro m
  induction m with
  | nil => intro k v _; rfl
  | cons p rest ih =>
    intro k v hk
    obtain ⟨a, b⟩ := p
    have h1 : ¬(a = k) := by
      intro h
      exact hk (by simp [h])
    simp only [assocInsert, if_neg h1, List.cons_append]
    rw [ih k v (fun h => hk (by simp [List.mem_map] at h ⊢; exact Or.inr h))]

theorem foldl_assocInsert_eq [DecidableEq κ] (f : κ → β) :
    ∀ (ks : List κ) (acc : List (κ × β)),
      ks.Nodup → (∀ k ∈ ks, k ∉ acc.map (fun p => p.1)) →
      ks.foldl (fun a k => assocInsert a k (f k)) acc =
        acc ++ ks.map (fun k => (k, f k)) := by
  intro ks
  induction ks with
  | nil => intro acc _ _; simp
  | cons k ks ih =>
    intro acc hnd hdisj
    simp only [List.foldl_cons, List.map_cons]
    rw [assocInsert_fresh acc k (f k) (hdisj k (List.mem_cons_self k ks))]
    rw [ih (acc ++ [(k, f k)]) (List.Nodup.of_cons hnd) ?_]
    · simp
    · intro k2 hk2
      simp only [List.map_append, List.mem_append, List.map_cons, List.map_nil]
      rintro (h | h)
      · exact hdisj k2 (List.mem_cons_of_mem k hk2) h
      · have : k2 = k := by simpa using h
        subst this
        exact (List.nodup_cons.mp hnd).1 hk2

theorem assocLookup_map_self [DecidableEq κ] (f : κ → β) :
    ∀ (ks : List κ) (k : κ), k ∈ ks →
      assocLookup (ks.map (fun k2 => (k2, f k2))) k = some (f k) := by
  intro ks
  induction ks with
  | nil => intro k hk; exact absurd hk (List.not_mem_nil k)
  | cons a ks ih =>
    intro k hk
    simp only [List.map_cons, assocLookup]
    by_cases hak : a = k
    · subst hak
      rw [if_pos rfl]
    · rw [if_neg hak]
      refine ih k ?_
      rcases List.mem_cons.mp hk with h | h
      · exact absurd h.symm hak
      · exact h

/-- With distinct keys the `ranking` map does not depend on the order in which
`search.keys()` was iterated: it is exactly the per-key score pairing. -/
theorem searchRanking_eq (search : List (String × List (Nat × List SearchResult)))
    (query : List String) (hnd : (search.map (fun p => p.1)).Nodup) :
    searchRanking search query =
      (search.map (fun p => p.1)).map
        (fun k => (k, fileScore ((assocLookup search k).getD []) query)) := by
  unfold searchRanking
  exact foldl_assocInsert_eq
    (fun k => fileScore ((assocLookup search k).getD []) query)
    (search.map (fun p => p.1)) [] hnd (by simp)

/-- With distinct keys, every key of the collated map is ranked with exactly
its file's score, independently of any enumeration order. -/
theorem rankOf_eq (search : List (String × List (Nat × List SearchResult)))
    (query : List String) (hnd : (search.map (fun p => p.1)).Nodup)
    (k : String) (hk : k ∈ search.map (fun p => p.1)) :
    rankOf search query k = fileScore ((assocLookup search k).getD []) query := by
  unfold rankOf
  rw [searchRanking_eq search query hnd,
    assocLookup_map_self
      (fun k2 => fileScore ((assocLookup search k2).getD []) query)
      (search.map (fun p => p.1)) k hk]
  rfl

theorem filter_orderedInsert (rank : String → ℚ) (q : ℚ) (x : String) :
    ∀ l : List String,
      (List.orderedInsert (fun a b => rank a ≤ rank b) x l).filter
          (fun k => rank k == q) =
        if rank x == q then x :: l.filter (fun k => rank k == q)
        else l.filter (fun k => rank k == q) := by
  intro l
  induction l with
  | nil =>
    simp only [List.orderedInsert, List.filter]
    split <;> simp_all
  | cons y ys ih =>
    simp only [List.orderedInsert]
    by_cases hxy : rank x ≤ rank y
    · rw [if_pos hxy, List.filter_cons]
    · rw [if_neg hxy, List.filter_cons, List.filter_cons, ih]
      by_cases hpx : (rank x == q) = true
      · have hqx : rank x = q := by simpa using hpx
        have hpy : ¬((rank y == q) = true) := by
          intro hy
          have hqy : rank y = q := by simpa using hy
          exact hxy (le_of_eq (by rw [hqx, hqy]))
        rw [if_pos hpx, if_pos hpx, if_neg hpy, if_neg hpy]
      · rw [if_neg hpx, if_neg hpx]

theorem filter_insertionSort (rank : String → ℚ) (q : ℚ) :
    ∀ l : List String,
      (List.insertionSort (fun a b => rank a ≤ rank b) l).filter
          (fun k => rank k == q) =
        l.filter (fun k => rank k == q) := by
  intro l
  induction l with
  | nil => rfl
  | cons x xs ih =>
    simp only [List.insertionSort]
    rw [filter_orderedInsert rank q x, ih, List.filter_cons]

theorem searchRanking_keys (search : List (String × List (Nat × List SearchResult)))
    (query : List String) (hnd : (search.map (fun p => p.1)).Nodup) :
    (searchRanking search query).map (fun p => p.1) = search.map (fun p => p.1) := by
  rw [searchRanking_eq search query hnd, List.map_map]
  exact List.map_id _

/-- C7 (counterexample): the claim says two surviving files with equal scores
appear in their insertion order.  Equal scores occur (the S3 map: both files
score 121/100, claim C2), and the list being sorted comes from
`ranking.keys()` — a std HashMap iteration whose order is unspecified, so
`["/b", "/a"]` is as legal an enumeration as any.  Under it the stable sort
outputs `/b` before `/a`, although the collation inserted `/a` first: the
program gives equal-scored files no insertion-order guarantee. -/
theorem c7_tie_order_counterexample :
    rankOf proxMap ["alpha", "beta"] "/a" = rankOf proxMap ["alpha", "beta"] "/b" ∧
    proxMap.map (fun p => p.1) = ["/a", "/b"] ∧
    sortSearchResultsWithOrder proxMap ["alpha", "beta"] ["/b", "/a"] =
      ["/b", "/a", ""] := by
  have ha : rankOf proxMap ["alpha", "beta"] "/a" =
      fileScore proxA ["alpha", "beta"] := by
    simp [rankOf, searchRanking, proxMap, assocInsert, assocLookup]
  have hb : rankOf proxMap ["alpha", "beta"] "/b" =
      fileScore proxB ["alpha", "beta"] := by
    simp [rankOf, searchRanking, proxMap, assocInsert, assocLookup]
  have hsA : fileScore proxA ["alpha", "beta"] = 1 * (11 / 10) * (11 / 10) := by
    simp [fileScore, proxA, assocLookup, List.range']
  have hsB : fileScore proxB ["alpha", "beta"] = 1 * (11 / 10) * (11 / 10) := by
    simp [fileScore, proxB, assocLookup, List.range']
  have hab : rankOf proxMap ["alpha", "beta"] "/a" =
      rankOf proxMap ["alpha", "beta"] "/b" := by
    rw [ha, hb, hsA, hsB]
  refine ⟨hab, rfl, ?_⟩
  have hr : rankOf proxMap ["alpha", "beta"] "/b" ≤
      rankOf proxMap ["alpha", "beta"] "/a" := le_of_eq hab.symm
  unfold sortSearchResultsWithOrder
  simp only [List.insertionSort, List.orderedInsert]
  rw [if_pos hr]
  rfl

/-- C7 (amended): for every collated search map (insertion-ordered association
list with distinct file keys, each surviving file having at least one stem
group), every query token list, and every enumeration `keys` the ranking
HashMap may yield (any permutation of the surviving file paths — the iteration
order is unspecified), the returned list is that enumeration stably sorted
ascending by score (lowest first) with one empty string appended: the body is
sorted by score, files of equal score keep exactly their order in the
enumeration — not necessarily the collation's insertion order — and every key
is ranked with its file's score regardless of the enumeration. -/
theorem c7_ties_follow_iteration_order
    (search : List (String × List (Nat × List SearchResult)))
    (query : List String) (keys : List String)
    (hnd : (search.map (fun p => p.1)).Nodup)
    (hperm : keys.Perm (search.map (fun p => p.1)))
    (_hne : ∀ p ∈ search, p.2 ≠ []) :
    ∃ body : List String,
      sortSearchResultsWithOrder search query keys = body ++ [""] ∧
      body.Pairwise (fun a b => rankOf search query a ≤ rankOf search query b) ∧
      (∀ q : ℚ, body.filter (fun k => rankOf search query k == q) =
        keys.filter (fun k => rankOf search query k == q)) ∧
      ∀ k ∈ keys, rankOf search query k =
        fileScore ((assocLookup search k).getD []) query := by
  refine ⟨keys.insertionSort
    (fun a b => rankOf search query a ≤ rankOf search query b), rfl, ?_, ?_, ?_⟩
  · haveI : IsTotal String
        (fun a b => rankOf search query a ≤ rankOf search query b) :=
      ⟨fun a b => le_total _ _⟩
    haveI : IsTrans String
        (fun a b => rankOf search query a ≤ rankOf search query b) :=
      ⟨fun _ _ _ hab hbc => le_trans hab hbc⟩
    exact List.sorted_insertionSort _ _
  · intro q
    exact filter_insertionSort (rankOf search query) q keys
  · intro k hk
    exact rankOf_eq search query hnd k (hperm.mem_iff.mp hk)

/-- Witness for C7 (amended): the theorem applied to the S3 collated map with
the enumeration `["/b", "/a"]`, the reverse of the insertion order. -/
theorem c7_ties_follow_iteration_order_witness :
    ((proxMap.map (fun p => p.1)).Nodup ∧
      (["/b", "/a"] : List String).Perm (proxMap.map (fun p => p.1)) ∧
      (∀ p ∈ proxMap, p.2 ≠ [])) ∧
    ∃ body : List String,
      sortSearchResultsWithOrder proxMap ["alpha", "beta"] ["/b", "/a"] =
        body ++ [""] ∧
      body.Pairwise (fun a b =>
        rankOf proxMap ["alpha", "beta"] a ≤ rankOf proxMap ["alpha", "beta"] b) ∧
      (∀ q : ℚ, body.filter (fun k => rankOf proxMap ["alpha", "beta"] k == q) =
        (["/b", "/a"] : List String).filter
          (fun k => rankOf proxMap ["alpha", "beta"] k == q)) ∧
      ∀ k ∈ (["/b", "/a"] : List String), rankOf proxMap ["alpha", "beta"] k =
        fileScore ((assocLookup proxMap k).getD []) ["alpha", "beta"] :=
  ⟨⟨by decide, by decide, by decide⟩,
    c7_ties_follow_iteration_order proxMap ["alpha", "beta"] ["/b", "/a"]
      (by decide) (by decide) (by decide)⟩

/-- On an unreadable file the indexer sees empty content: no tokens, no new
stems, an empty posting insert — re-indexing reduces to clearing the file's
old postings. -/
theorem indexFile_none (st : String → String) (s : Store) (p : String)
    (fid : Nat) (mt : Nat) (hfid : 0 < fid) :
    indexFile st s p fid mt none = clearIndexFor s fid := by
  have htok : tokenizeFiltered "" = [] := rfl
  simp only [indexFile, Option.getD_none, htok, if_pos hfid, List.foldl_nil,
    insertBulkStems, List.isEmpty_nil, if_true, List.enum_nil, List.map_nil,
    insertBulkWordTuples, List.append_nil]

theorem selectFile_some_mem (store : Store) (path : String)
    (row : MonitoredFile) (h : selectFile store path = some row) :
    row ∈ store.files ∧ row.path = path := by
  unfold selectFile at h
  have hm := List.mem_of_mem_getLast? h
  rw [List.mem_filter] at hm
  exact ⟨hm.1, of_decide_eq_true hm.2⟩

theorem selectFile_none_no_path (store : Store) (path : String)
    (h : selectFile store path = none) :
    ∀ f ∈ store.files, f.path ≠ path := by
  intro f hf hp
  unfold selectFile at h
  rw [List.getLast?_eq_none_iff] at h
  have hmem : f ∈ store.files.filter (fun f => f.path = path) :=
    List.mem_filter.mpr ⟨hf, decide_eq_true hp⟩
  rw [h] at hmem
  exact absurd hmem (List.not_mem_nil f)

theorem filter_clear (postings : List IndexTuple) (fid : Nat) :
    (postings.filter (fun t => !(t.file == fid))).filter
      (fun t => t.file == fid) = [] := by
  induction postings with
  | nil => rfl
  | cons t rest ih =>
    by_cases ht : t.file == fid
    · simp [List.filter_cons, ht, ih]
    · simp [List.filter_cons, ht, ih]

/-- C8: for every path whose read fails during `index_file` (content `none`),
given a store with unique paths, positive autoincrement ids, and the file
either unknown or stale, the re-index completes (the model is total): the
file's `monitored_file` row exists afterwards, every row with that path
carries the updated mtime, and the file's id has exactly zero postings. -/
theorem c8_unreadable_file_absorbed (st : String → String) (store : Store)
    (path : String) (mtime : Nat)
    (hnd : (store.files.map (fun f => f.path)).Nodup)
    (hid : ∀ f ∈ store.files, 0 < f.id)
    (hstale : ∀ f ∈ store.files, f.path = path → f.modified < mtime)
    (hnext : 0 < store.nextFileId) :
    (∃ f ∈ (processFile st store path mtime none).files, f.path = path) ∧
    ∀ f ∈ (processFile st store path mtime none).files, f.path = path →
      f.modified = mtime ∧
      (processFile st store path mtime none).postings.filter
        (fun t => t.file == f.id) = [] := by
  unfold processFile
  cases hsel : selectFile store path with
  | some row =>
    obtain ⟨hrowmem, hrowpath⟩ := selectFile_some_mem store path row hsel
    have hstl : row.modified < mtime := hstale row hrowmem hrowpath
    simp only [hstl, if_true]
    rw [indexFile_none st _ path row.id mtime (hid row hrowmem)]
    dsimp only [clearIndexFor, updateFileModTime]
    constructor
    · refine ⟨{ row with modified := mtime }, ?_, hrowpath⟩
      have hmem := List.mem_map_of_mem
        (fun f : MonitoredFile =>
          if f.path = path then { f with modified := mtime } else f) hrowmem
      simpa [hrowpath] using hmem
    · intro f hf hfp
      obtain ⟨f0, hf0, hgf⟩ := List.mem_map.mp hf
      by_cases hp0 : f0.path = path
      · have hf0row : f0 = row :=
          List.inj_on_of_nodup_map hnd hf0 hrowmem (by rw [hp0, hrowpath])
        subst hf0row
        rw [if_pos hp0] at hgf
        constructor
        · rw [← hgf]
        · have hfid : f.id = f0.id := by rw [← hgf]
          rw [hfid]
          exact filter_clear _ _
      · rw [if_neg hp0] at hgf
        rw [← hgf] at hfp
        exact absurd hfp hp0
  | none =>
    rw [indexFile_none st ((insertFile store path mtime).1) path
      ((insertFile store path mtime).2.id) mtime hnext]
    dsimp only [clearIndexFor, insertFile]
    constructor
    · exact ⟨⟨store.nextFileId, mtime, path⟩,
        List.mem_append_right _ (List.mem_singleton_self _), rfl⟩
    · intro f hf hfp
      rcases List.mem_append.mp hf with hmem | hmem
      · exact absurd hfp (selectFile_none_no_path store path hsel f hmem)
      · have hfeq : f = ⟨store.nextFileId, mtime, path⟩ := by simpa using hmem
        subst hfeq
        exact ⟨rfl, filter_clear _ _⟩

/-- Witness for C8: re-indexing the stale file `/f` of `staleStore` with a
failed read leaves its row at the new mtime 10 with zero postings. -/
theorem c8_unreadable_file_absorbed_witness :
    ((staleStore.files.map (fun f => f.path)).Nodup ∧
      (∀ f ∈ staleStore.files, 0 < f.id) ∧
      (∀ f ∈ staleStore.files, f.path = "/f" → f.modified < 10) ∧
      0 < staleStore.nextFileId) ∧
    (∃ f ∈ (processFile (fun s => s) staleStore "/f" 10 none).files,
      f.path = "/f") ∧
    ∀ f ∈ (processFile (fun s => s) staleStore "/f" 10 none).files,
      f.path = "/f" →
      f.modified = 10 ∧
      (processFile (fun s => s) staleStore "/f" 10 none).postings.filter
        (fun t => t.file == f.id) = [] :=
  ⟨⟨by decide, by decide, by decide, by decide⟩,
    (c8_unreadable_file_absorbed (fun s => s) staleStore "/f" 10
      (by decide) (by decide) (by decide) (by decide)).1,
    (c8_unreadable_file_absorbed (fun s => s) staleStore "/f" 10
      (by decide) (by decide) (by decide) (by decide)).2⟩

theorem utf8DecodeAux_replicate_zero :
    ∀ n, utf8DecodeAux n (List.replicate n 0) =
      some (List.replicate n (Char.ofNat 0)) := by
  intro n
  induction n with
  | zero => rfl
  | succ n ih =>
    show (utf8DecodeAux n (List.replicate n 0)).map (fun cs => Char.ofNat 0 :: cs) = _
    rw [ih]
    rfl

/-- C9 (counterexample): a request whose first byte is 0xFF — never valid in
UTF-8 — reaches `str::from_utf8(&buffer).unwrap()`, which panics; the claim
that every byte sequence of up to 4096 bytes is handled without aborting is
false. -/
theorem c9_invalid_utf8_panics :
    handleQuery (fun s => s) emptyStore 0 [0xFF] =
      Except.error "byte buffer is not valid UTF-8" := by
  have hbuf : (([0xFF] : List Nat).take 4096 ++
      List.replicate (4096 - min ([0xFF] : List Nat).length 4096) 0) =
      255 :: List.replicate 4095 0 := rfl
  have hlen : (255 :: List.replicate 4095 (0 : Nat)).length = 4096 := by
    rw [List.length_cons, List.length_replicate]
  simp only [handleQuery]
  rw [hbuf]
  unfold utf8Decode?
  rw [hlen]
  rfl

/-- C9 (amended): for every request of up to 4096 bytes whose zero-padded
4096-byte buffer is valid UTF-8, `handle_queries` dispatches it (date query or
free-text query) and returns a response without aborting; a buffer that is not
valid UTF-8 — an invalid byte, or a multi-byte character truncated at the
4096-byte boundary — makes `str::from_utf8(..).unwrap()` panic instead. -/
theorem c9_valid_utf8_handled (st : String → String) (store : Store)
    (todayStart : Int) (request : List Nat)
    (hvalid : (utf8Decode? (request.take 4096 ++
      List.replicate (4096 - min request.length 4096) 0)).isSome) :
    ∃ r, handleQuery st store todayStart request = Except.ok r := by
  simp only [handleQuery]
  obtain ⟨cs, hcs⟩ := Option.isSome_iff_exists.mp hvalid
  rw [hcs]
  dsimp only
  by_cases h1 : (String.mk cs).startsWith "@on"
  · exact ⟨_, by rw [if_pos h1]⟩
  · rw [if_neg h1]
    by_cases h2 : (String.mk cs).startsWith "@ago"
    · exact ⟨_, by rw [if_pos h2]⟩
    · exact ⟨_, by rw [if_neg h2]⟩

/-- Witness for C9 (amended): the two-byte request `hi` zero-padded to 4096
bytes is valid UTF-8 and is handled with an `ok` response. -/
theorem c9_valid_utf8_handled_witness :
    (utf8Decode? (([104, 105] : List Nat).take 4096 ++
      List.replicate (4096 - min ([104, 105] : List Nat).length 4096) 0)).isSome ∧
    ∃ r, handleQuery (fun s => s) emptyStore 0 [104, 105] = Except.ok r := by
  have hdec : utf8Decode? (([104, 105] : List Nat).take 4096 ++
      List.replicate (4096 - min ([104, 105] : List Nat).length 4096) 0) =
      some (Char.ofNat 104 :: Char.ofNat 105 :: List.replicate 4094 (Char.ofNat 0)) := by
    have hlen : (104 :: 105 :: List.replicate 4094 (0 : Nat)).length = 4096 := by
      rw [List.length_cons, List.length_cons, List.length_replicate]
    have h2 : utf8DecodeAux 4096 (104 :: 105 :: List.replicate 4094 0) =
        (utf8DecodeAux 4095 (105 :: List.replicate 4094 0)).map
          (fun cs => Char.ofNat 104 :: cs) := rfl
    have h1 : utf8DecodeAux 4095 (105 :: List.replicate 4094 0) =
        (utf8DecodeAux 4094 (List.replicate 4094 0)).map
          (fun cs => Char.ofNat 105 :: cs) := rfl
    show utf8Decode? (104 :: 105 :: List.replicate 4094 0) = _
    unfold utf8Decode?
    rw [hlen, h2, h1, utf8DecodeAux_replicate_zero 4094]
    rfl
  exact ⟨by rw [hdec]; rfl,
    c9_valid_utf8_handled (fun s => s) emptyStore 0 [104, 105] (by rw [hdec]; rfl)⟩

end Intern
